import Mathlib

/-! Verification of the Pub/Sub API Node client (bundled `src/client.js`).

Shallow embedding of the pure logic of the client: the replay-id codec,
the custom Avro 64-bit long codec, the change-event field bitmap
resolver, the single-property flattening pass, the user-supplied
authentication validation, and the subscription event accounting that
the `PubSubEventEmitter` performs.  Definitions are transcribed from the
JavaScript source; definitions whose name ends in `Spec` restate the
specification's wording and are compared against the transcriptions.

JavaScript strings that the bitmap resolver manipulates are modelled as
`List Char`; `String.prototype.replaceAll` with a single-character
pattern is exactly a `flatMap` over the characters.  JavaScript numbers
holding integers are modelled as `Nat`/`Int` together with an explicit
rounding function for `Number(bigint)` conversions. -/

/-! ## Replay-id codec (`src/utils/eventParser.js`) -/

/-- The constant `Number.MAX_SAFE_INTEGER` = 2^53 - 1. -/
def MAX_SAFE_INTEGER : Int := 9007199254740991

/-- Floor of the base-2 logarithm, fuel-structured so that it reduces
inside the kernel (the first argument bounds the recursion depth). -/
def log2Fuel : Nat → Nat → Nat
  | 0, _ => 0
  | fuel + 1, n => if n < 2 then 0 else log2Fuel fuel (n / 2) + 1

/-- Floor of the base-2 logarithm of a positive natural number. -/
def natLog2 (n : Nat) : Nat := log2Fuel n n

/-- JavaScript `Number(big)` applied to a non-negative integer below 2^64:
the nearest double-precision value, i.e. round to 53 significant bits,
ties to even.  Values below 2^53 are exactly representable. -/
def jsNumberOfNat (n : Nat) : Nat :=
  if n < 2 ^ 53 then n
  else
    let e := natLog2 n - 52
    let q := n / 2 ^ e
    let r := n % 2 ^ e
    let half := 2 ^ (e - 1)
    if half < r ∨ (r = half ∧ q % 2 = 1) then (q + 1) * 2 ^ e else q * 2 ^ e

/-- Source `decodeReplayId(encodedReplayId)`:
`Number(encodedReplayId.readBigUInt64BE())` — big-endian read of the
buffer's bytes followed by conversion to a JavaScript number. -/
def decodeReplayId (encodedReplayId : List Nat) : Nat :=
  jsNumberOfNat (encodedReplayId.foldl (fun a b => 256 * a + b) 0)

/-- Source `encodeReplayId(replayId)`: `buf.writeBigUInt64BE(BigInt(replayId), 0)`
on an 8-byte buffer.  `writeBigUInt64BE` throws outside `[0, 2^64)`,
modelled by `none`. -/
def encodeReplayId (replayId : Nat) : Option (List Nat) :=
  if replayId < 2 ^ 64 then
    some [replayId / 2 ^ 56 % 256, replayId / 2 ^ 48 % 256, replayId / 2 ^ 40 % 256,
          replayId / 2 ^ 32 % 256, replayId / 2 ^ 24 % 256, replayId / 2 ^ 16 % 256,
          replayId / 2 ^ 8 % 256, replayId % 256]
  else none

/-! ## Custom Avro long codec (`CUSTOM_LONG_AVRO_TYPE` in `src/client.js`) -/

/-- A decoded 64-bit long in memory: either a JavaScript number
(safe-integer range) or a BigInt.  Both constructors carry the exact
mathematical value, which is faithful because the codec only builds
numbers inside the safe-integer range. -/
inductive JSLong where
  | num (v : Int)
  | big (v : Int)
deriving DecidableEq

/-- The mathematical value of a decoded long. -/
def JSLong.val : JSLong → Int
  | .num v => v
  | .big v => v

/-- Source `buf.readBigInt64LE()`: little-endian read of 8 bytes as a signed
64-bit integer. -/
def readBigInt64LE (buf : List Nat) : Int :=
  let u : Nat := buf.foldr (fun b a => 256 * a + b) 0
  if 2 ^ 63 ≤ u then (u : Int) - 2 ^ 64 else (u : Int)

/-- The `fromBuffer` of `CUSTOM_LONG_AVRO_TYPE`, as a function of the signed
64-bit value read from the buffer: BigInt when strictly outside
`[MIN_SAFE_INTEGER, MAX_SAFE_INTEGER]`, otherwise a number. -/
def customLongFromBuffer (v : Int) : JSLong :=
  if v < -MAX_SAFE_INTEGER ∨ MAX_SAFE_INTEGER < v then .big v else .num v

/-- The `fromBuffer` hook composed with the buffer read. -/
def customLongFromBytes (buf : List Nat) : JSLong :=
  customLongFromBuffer (readBigInt64LE buf)

/-- JavaScript `===` between two long values: strict equality is `false`
whenever one operand is a number and the other a BigInt, and value
equality otherwise. -/
def jsStrictEqLong : JSLong → JSLong → Bool
  | .num a, .num b => a == b
  | .big a, .big b => a == b
  | _, _ => false

/-- JavaScript `<` between two long values: the relational operators
compare the mathematical values even across number/BigInt operands. -/
def jsLtLong (a b : JSLong) : Bool := decide (a.val < b.val)

/-- Source `compare: (n1, n2) => n1 === n2 ? 0 : n1 < n2 ? -1 : 1`. -/
def customLongCompare (n1 n2 : JSLong) : Int :=
  if jsStrictEqLong n1 n2 then 0 else if jsLtLong n1 n2 then -1 else 1

/-! ## Claim C2 -/

/-- C2 counterexample: the claim says `decodeReplayId (encodeReplayId n) = n`
for every unsigned 64-bit `n`, but at `n = 2^53 + 1` the decoder's
`Number(...)` conversion rounds to `2^53`, so the round trip fails. -/
theorem c2_counterexample_roundtrip_fails_beyond_safe_range :
    (encodeReplayId 9007199254740993).map decodeReplayId = some 9007199254740992 ∧
    (9007199254740992 : Nat) ≠ 9007199254740993 := by
  constructor
  · decide
  · decide

/-- Auxiliary: `jsNumberOfNat` is the identity on the safe range. -/
theorem jsNumberOfNat_of_le_safe (n : Nat) (hn : n ≤ 2 ^ 53) : jsNumberOfNat n = n := by
  rcases Nat.lt_or_ge n (2 ^ 53) with h | h
  · unfold jsNumberOfNat
    rw [if_pos h]
  · have : n = 2 ^ 53 := le_antisymm hn h
    subst this
    decide

/-- C2 (amended): `encodeReplayId` produces exactly 8 bytes in
big-endian order for every unsigned 64-bit input, and the round trip
`decodeReplayId (encodeReplayId n) = n` holds for every `n` in the
safely representable double range (`n ≤ 2^53`); beyond that range the
decoder always returns a standard (rounded) number and the round trip
can fail. -/
theorem c2_amended_replayId_roundtrip :
    (∀ n : Nat, n < 2 ^ 64 →
      ∃ b, encodeReplayId n = some b ∧ b.length = 8 ∧
        b.foldl (fun a x => 256 * a + x) 0 = n) ∧
    (∀ n : Nat, n ≤ 2 ^ 53 → (encodeReplayId n).map decodeReplayId = some n) := by
  have henc : ∀ n : Nat, n < 2 ^ 64 →
      ∃ b, encodeReplayId n = some b ∧ b.length = 8 ∧
        b.foldl (fun a x => 256 * a + x) 0 = n := by
    intro n hn
    refine ⟨[n / 2 ^ 56 % 256, n / 2 ^ 48 % 256, n / 2 ^ 40 % 256, n / 2 ^ 32 % 256,
             n / 2 ^ 24 % 256, n / 2 ^ 16 % 256, n / 2 ^ 8 % 256, n % 256], ?_, ?_, ?_⟩
    · rw [encodeReplayId, if_pos hn]
    · simp
    · simp only [List.foldl_cons, List.foldl_nil]
      norm_num at hn ⊢
      omega
  refine ⟨henc, ?_⟩
  intro n hn
  have hn64 : n < 2 ^ 64 := by
    have h1 : (2 : Nat) ^ 53 = 9007199254740992 := by norm_num
    have h2 : (2 : Nat) ^ 64 = 18446744073709551616 := by norm_num
    omega
  obtain ⟨b, hb, _, hfold⟩ := henc n hn64
  rw [hb]
  show some (decodeReplayId _) = some n
  rw [decodeReplayId, hfold, jsNumberOfNat_of_le_safe n hn]


/-- C2 witness: the amended round trip evaluated at `n = 3`. -/
theorem c2_amended_replayId_roundtrip_witness :
    (3 : Nat) ≤ 2 ^ 53 ∧ (encodeReplayId 3).map decodeReplayId = some 3 :=
  ⟨by decide, c2_amended_replayId_roundtrip.2 3 (by decide)⟩

/-! ## Claim C4 -/

/-- C4: for every pair of decoded 64-bit long values (outputs of the
custom codec's `fromBuffer`), `compare` orders the two operands by their
mathematical value, whichever representation each ends up in; in
particular it returns 0 exactly on numerically equal decoded values.
(`fromBuffer` picks the representation canonically from the value, so
two numerically equal decoded values are never in mixed
representations, and for numerically distinct values the `<` fallback
compares exactly even across representations.) -/
theorem c4_customLong_compare_numeric (v1 v2 : Int) :
    customLongCompare (customLongFromBuffer v1) (customLongFromBuffer v2)
      = if v1 = v2 then 0 else if v1 < v2 then -1 else 1 := by
  unfold customLongFromBuffer MAX_SAFE_INTEGER
  split_ifs with h1 h2 h2 <;>
    simp only [customLongCompare, jsStrictEqLong, jsLtLong, JSLong.val, beq_iff_eq,
      decide_eq_true_eq, Bool.false_eq_true, if_false] <;>
    split_ifs <;> omega

/-! ## Subscription event accounting
(`src/pubSubEventEmitter.js` and `PubSubApiClient.#subscribe`) -/

/-- The notifications the subscription controller emits on its
`PubSubEventEmitter`. -/
inductive Notification where
  | dataN
  | errorN
  | lastevent
  | keepalive (latestReplayId : Nat)
  | endN
  | statusN
deriving DecidableEq

/-- The emitter's counters: `#requestedEventCount` and
`#receivedEventCount` (the latter starts at 0 in the constructor). -/
structure EmitterState where
  requestedEventCount : Nat
  receivedEventCount : Nat
deriving DecidableEq

/-- Source `PubSubEventEmitter.emit`: increments `#receivedEventCount` if and
only if the event name is `"data"`, then dispatches. -/
def emitOnEmitter (s : EmitterState) (n : Notification) : EmitterState :=
  match n with
  | .dataN => { s with receivedEventCount := s.receivedEventCount + 1 }
  | _ => s

/-- The body of the per-event callback in `PubSubApiClient.#subscribe`:
on decode success emit `"data"`, on failure emit `"error"` instead;
afterwards, if the received count equals the requested count, emit
`"lastevent"`.  An event is abstracted to its decode outcome. -/
def handleSubscribedEvent (s : EmitterState) (decodeOk : Bool) :
    EmitterState × List Notification :=
  let (s1, ns) :=
    if decodeOk then (emitOnEmitter s .dataN, [Notification.dataN])
    else (emitOnEmitter s .errorN, [Notification.errorN])
  if s1.receivedEventCount = s1.requestedEventCount then
    (emitOnEmitter s1 .lastevent, ns ++ [Notification.lastevent])
  else (s1, ns)

/-- Source `data.events.forEach(...)`: every event of a batch goes through the
per-event callback.  The model processes the batch in order (the source
dispatches the callbacks concurrently; per-event bookkeeping is the
same). -/
def handleEventBatch : EmitterState → List Bool → EmitterState × List Notification
  | s, [] => (s, [])
  | s, ok :: rest =>
    let (s1, ns1) := handleSubscribedEvent s ok
    let (s2, ns2) := handleEventBatch s1 rest
    (s2, ns1 ++ ns2)

/-- A server message on the subscription stream: a latest-replay-id
buffer plus an optional batch of events (`events` is absent on
keepalives; each event is abstracted to its decode outcome). -/
structure ServerMessage where
  latestReplayId : List Nat
  events : Option (List Bool)

/-- The `subscription.on("data", ...)` handler of
`PubSubApiClient.#subscribe`: decode the latest replay id; if the
message carries events run the per-event callbacks, otherwise emit a
`"keepalive"` notification carrying the message with its decoded
cursor. -/
def handleServerMessage (s : EmitterState) (m : ServerMessage) :
    EmitterState × List Notification :=
  let latestReplayId := decodeReplayId m.latestReplayId
  match m.events with
  | some evs => handleEventBatch s evs
  | none =>
    (emitOnEmitter s (.keepalive latestReplayId), [Notification.keepalive latestReplayId])

/-! ## Claim C1 -/

/-- C1 counterexample: for a batch of `N = 1` events whose single event
fails schema decode, the claim says `receivedCount` increases by 1; the
code emits the `"error"` notification through
`PubSubEventEmitter.emit`, which only increments the counter for
`"data"`, so the count stays at 0. -/
theorem c1_counterexample_error_does_not_increment :
    (handleEventBatch ⟨5, 0⟩ [false]).1.receivedEventCount = 0 ∧
    (handleEventBatch ⟨5, 0⟩ [false]).2 = [Notification.errorN] ∧
    (handleEventBatch ⟨5, 0⟩ [false]).1.receivedEventCount ≠ 0 + 1 := by
  refine ⟨by decide, by decide, by decide⟩

/-- C1 (amended): for every batch, `receivedCount` increases by exactly
the number of successfully decoded events — it is incremented once per
`"data"` notification and not at all for `"error"` notifications — so a
batch of `N` events with exactly one decode failure emits exactly one
error notification and `N - 1` data notifications and increases
`receivedCount` by `N - 1`.  (`requestedEventCount` never changes.) -/
theorem c1_amended_receivedCount_counts_successes (s : EmitterState) (evs : List Bool) :
    (handleEventBatch s evs).1.receivedEventCount
        = s.receivedEventCount + evs.count true ∧
    (handleEventBatch s evs).2.count Notification.dataN = evs.count true ∧
    (handleEventBatch s evs).2.count Notification.errorN = evs.count false ∧
    (handleEventBatch s evs).1.requestedEventCount = s.requestedEventCount := by
  induction evs generalizing s with
  | nil => simp [handleEventBatch]
  | cons ok rest ih =>
    obtain ⟨ih1, ih2, ih3, ih4⟩ := ih (handleSubscribedEvent s ok).1
    simp only [handleEventBatch, List.count_cons, List.count_append]
    rcases ok with _ | _ <;>
      simp only [handleSubscribedEvent, emitOnEmitter, Bool.false_eq_true, if_false,
        if_true] <;>
      split_ifs <;>
      simp_all [handleEventBatch, List.count_append, List.count_cons] <;>
      omega

/-! ## Claim C3 -/

/-- C3 counterexample: with `requestedCount = 1` and a single event
whose decode fails, the claim says `"lastevent"` still fires; in the
code the error path does not increment the received count, the
`received = requested` check fails and no `"lastevent"` is emitted.
Moreover `"lastevent"` need not fire exactly once: with
`requestedCount = 2` and the batch success-success-failure, the check
also passes after the trailing failed event and `"lastevent"` is
emitted twice. -/
theorem c3_counterexample_lastevent :
    (handleEventBatch ⟨1, 0⟩ [false]).2.count Notification.lastevent = 0 ∧
    (handleEventBatch ⟨2, 0⟩ [true, true, false]).2.count Notification.lastevent = 2 := by
  refine ⟨by decide, by decide⟩


/-- Auxiliary: evaluation of the per-event callback on a failed decode. -/
theorem handleSubscribedEvent_false (s : EmitterState) :
    handleSubscribedEvent s false
      = if s.receivedEventCount = s.requestedEventCount
        then (s, [Notification.errorN, Notification.lastevent])
        else (s, [Notification.errorN]) := by
  by_cases h : s.receivedEventCount = s.requestedEventCount <;>
    simp [handleSubscribedEvent, emitOnEmitter, h]

/-- Auxiliary: evaluation of the per-event callback on a successful decode. -/
theorem handleSubscribedEvent_true (s : EmitterState) :
    handleSubscribedEvent s true
      = if s.receivedEventCount + 1 = s.requestedEventCount
        then (⟨s.requestedEventCount, s.receivedEventCount + 1⟩,
              [Notification.dataN, Notification.lastevent])
        else (⟨s.requestedEventCount, s.receivedEventCount + 1⟩,
              [Notification.dataN]) := by
  by_cases h : s.receivedEventCount + 1 = s.requestedEventCount <;>
    simp [handleSubscribedEvent, emitOnEmitter, h]

/-- Auxiliary: unfolding one step of the batch loop. -/
theorem handleEventBatch_cons (s : EmitterState) (ok : Bool) (rest : List Bool) :
    handleEventBatch s (ok :: rest)
      = ((handleEventBatch (handleSubscribedEvent s ok).1 rest).1,
         (handleSubscribedEvent s ok).2
           ++ (handleEventBatch (handleSubscribedEvent s ok).1 rest).2) := rfl

/-- Auxiliary: peeling the first index off a filtered `List.range`. -/
theorem length_filter_range_succ (n : Nat) (P : Nat → Bool) :
    ((List.range (n + 1)).filter P).length
      = (if P 0 then 1 else 0) + ((List.range n).filter (fun i => P (i + 1))).length := by
  rw [List.range_succ_eq_map, List.filter_cons, List.filter_map]
  have hc : P ∘ Nat.succ = fun i => P (i + 1) := rfl
  rw [hc]
  rcases h : P 0 <;> simp [h] <;> omega

/-- Auxiliary: peeling the first event off the position-based count of
check-passing prefixes. -/
theorem filter_take_count_succ (c r : Nat) (ok : Bool) (rest : List Bool) :
    ((List.range (rest.length + 1)).filter
        (fun i => decide (c + (((ok :: rest).take (i + 1)).count true) = r))).length
      = (if c + (if ok then 1 else 0) = r then 1 else 0)
        + ((List.range rest.length).filter
            (fun i => decide ((c + (if ok then 1 else 0))
                + ((rest.take (i + 1)).count true) = r))).length := by
  rw [length_filter_range_succ]
  congr 1
  · rcases ok with _ | _ <;> simp [List.count_cons]
  · apply congrArg
    apply List.filter_congr
    intro i _
    rw [List.take_succ_cons, decide_eq_decide, List.count_cons]
    rcases ok with _ | _ <;> simp <;> omega

/-- Auxiliary characterization of the `"lastevent"` emissions: processing
a batch emits one `"lastevent"` notification for exactly those events
after whose processing the received count equals the requested count. -/
theorem lastevent_count_characterization (evs : List Bool) (s : EmitterState) :
    (handleEventBatch s evs).2.count Notification.lastevent
      = ((List.range evs.length).filter
          (fun i => decide (s.receivedEventCount + ((evs.take (i + 1)).count true)
              = s.requestedEventCount))).length := by
  induction evs generalizing s with
  | nil => simp [handleEventBatch]
  | cons ok rest ih =>
    rw [handleEventBatch_cons, List.length_cons, filter_take_count_succ]
    simp only [List.count_append]
    rcases ok with _ | _
    · rw [handleSubscribedEvent_false]
      by_cases h : s.receivedEventCount = s.requestedEventCount <;>
        simp [h, ih s, List.count_cons]
    · rw [handleSubscribedEvent_true]
      by_cases h : s.receivedEventCount + 1 = s.requestedEventCount
      · simp [h, List.count_cons]
        rw [ih ⟨s.requestedEventCount, s.requestedEventCount⟩]
        have hq : (⟨s.requestedEventCount, s.requestedEventCount⟩ :
            EmitterState).requestedEventCount = s.requestedEventCount := rfl
        have hr : (⟨s.requestedEventCount, s.requestedEventCount⟩ :
            EmitterState).receivedEventCount = s.requestedEventCount := rfl
        simp only [hq, hr]
        apply congrArg
        apply List.filter_congr
        intro i _
        rw [decide_eq_decide]
        omega
      · simp [h, ih ⟨s.requestedEventCount, s.receivedEventCount + 1⟩, List.count_cons]

/-- C3 (amended): for a subscription with `requestedCount = r`,
`"lastevent"` is emitted after exactly those events at which the count
of successfully decoded (`"data"`) events reaches `r`: it fires once
`r` events have been successfully decoded, it does not fire at the
`r`-th received event when that event's decode failed (the count is
then still below `r`), and it fires again after any later event whose
decode fails while the count stays at `r`. -/
theorem c3_amended_lastevent_on_success_count (r : Nat) (evs : List Bool) :
    (handleEventBatch ⟨r, 0⟩ evs).2.count Notification.lastevent
      = ((List.range evs.length).filter
          (fun i => decide ((evs.take (i + 1)).count true = r))).length := by
  have h := lastevent_count_characterization evs ⟨r, 0⟩
  simpa using h

/-! ## Claim C8 -/

/-- C8: a server message carrying no events never increments the
received count and always emits exactly one `"keepalive"` notification
carrying the message's decoded replay cursor. -/
theorem c8_keepalive_no_count_change (s : EmitterState) (bytes : List Nat) :
    handleServerMessage s ⟨bytes, none⟩
      = (s, [Notification.keepalive (decodeReplayId bytes)]) := rfl

/-! ## Field bitmap resolver (`src/utils/eventParser.js`)

Bitmap strings are modelled as `List Char`.  Failure paths of the
JavaScript (a thrown `TypeError` from indexing past the field list,
from `parseInt` returning `NaN`, or from calling `getTypes()` on a
non-union type) are modelled as `none`. -/

mutual

/-- An Avro type as seen by the resolver: a union (`getTypes()`), a
record (`getFields()`), or anything else. -/
inductive AvroType where
  | unionT (types : List AvroType)
  | recordT (fields : List AvroField)
  | otherT

/-- An Avro record field: a name (`_name` / `getName()`) and a type
(`_type`). -/
inductive AvroField where
  | mk (name : String) (ftype : AvroType)

end

/-- The field's name. -/
def AvroField.name : AvroField → String
  | .mk n _ => n

/-- The field's type. -/
def AvroField.ftype : AvroField → AvroType
  | .mk _ t => t

/-- Source `type.getTypes()`: defined on union types only; elsewhere the
JavaScript call throws. -/
def AvroType.getTypes : AvroType → Option (List AvroType)
  | .unionT ts => some ts
  | _ => none

/-- Source `replaceAll` with a single-character pattern: each occurrence of
`c` is replaced by `r`. -/
def replaceAllChar (c : Char) (r : List Char) (l : List Char) : List Char :=
  l.flatMap (fun x => if x = c then r else [x])

/-- The sixteen replacements of `hexToBin`, in source order.  Note the
table covers only `0-9` and uppercase `A-F`. -/
def hexExpansionTable : List (Char × List Char) :=
  [('0', ['0', '0', '0', '0']), ('1', ['0', '0', '0', '1']),
   ('2', ['0', '0', '1', '0']), ('3', ['0', '0', '1', '1']),
   ('4', ['0', '1', '0', '0']), ('5', ['0', '1', '0', '1']),
   ('6', ['0', '1', '1', '0']), ('7', ['0', '1', '1', '1']),
   ('8', ['1', '0', '0', '0']), ('9', ['1', '0', '0', '1']),
   ('A', ['1', '0', '1', '0']), ('B', ['1', '0', '1', '1']),
   ('C', ['1', '1', '0', '0']), ('D', ['1', '1', '0', '1']),
   ('E', ['1', '1', '1', '0']), ('F', ['1', '1', '1', '1'])]

/-- Sequential application of a replacement table. -/
def chainReplace (table : List (Char × List Char)) (l : List Char) : List Char :=
  table.foldl (fun acc cr => replaceAllChar cr.1 cr.2 acc) l

/-- Source `hexToBin(hex)`: strip the first two characters, then apply the
sixteen `replaceAll` calls in order. -/
def hexToBin (hex : List Char) : List Char :=
  chainReplace hexExpansionTable (hex.drop 2)

/-- Source `getFieldNamesFromBitmap(fields, fieldBitmapAsHex)`: binary-expand
the hex string, reverse it, and collect the names of the fields at the
positions (below both lengths) holding a `'1'`. -/
def getFieldNamesFromBitmap (fields : List AvroField) (fieldBitmapAsHex : List Char) :
    List String :=
  (((hexToBin fieldBitmapAsHex).reverse).zip fields).filterMap
    (fun cf => if cf.1 = '1' then some cf.2.name else none)

/-- Source `getChildFields(parentField)`: the fields of the record-typed
branches of the parent field's (union) type, in order. -/
def getChildFields (parentField : AvroField) : Option (List AvroField) :=
  (parentField.ftype.getTypes).map
    (fun types => types.flatMap
      (fun t => match t with
        | .recordT fs => fs
        | _ => []))

/-- JavaScript `parseInt(s, 10)`: optional leading spaces and sign, then
the longest digit prefix; `NaN` (here `none`) when no digit follows. -/
def parseIntJS (s : List Char) : Option Int :=
  let t := s.dropWhile (fun c => c = ' ')
  let signAndRest : Int × List Char :=
    match t with
    | '-' :: r => (-1, r)
    | '+' :: r => (1, r)
    | r => (1, r)
  let ds := signAndRest.2.takeWhile Char.isDigit
  if ds.isEmpty then none
  else some (signAndRest.1 * ((ds.foldl (fun a c => 10 * a + (c.toNat - 48)) 0 : Nat) : Int))

/-- Splitting a character list on a separator character, JavaScript
`String.prototype.split` style (always at least one segment). -/
def splitOnChar (sep : Char) : List Char → List (List Char)
  | [] => [[]]
  | x :: rest =>
    let r := splitOnChar sep rest
    if x = sep then [] :: r
    else
      match r with
      | h :: t => (x :: h) :: t
      | [] => [[x]]

/-- One iteration of the parent-child `forEach` in `parseFieldBitmaps`:
split the entry on `-`; with fewer than two segments contribute
nothing; otherwise resolve the parent field by the parsed index
(indexing past the list or a `NaN` index throws), gather its child
fields and resolve the child bitmap against them, prefixing each name
with the parent's name and a dot. -/
def parseChildBitmapPair (allFields : List AvroField) (fieldBitmapAsHex : List Char) :
    Option (List String) :=
  match splitOnChar '-' fieldBitmapAsHex with
  | idxStr :: childHex :: _ =>
    match parseIntJS idxStr with
    | none => none
    | some i =>
      match (if 0 ≤ i then allFields.get? i.toNat else none) with
      | none => none
      | some parentField =>
        (getChildFields parentField).map
          (fun childFields =>
            (getFieldNamesFromBitmap childFields childHex).map
              (fun fieldName => parentField.name ++ "." ++ fieldName))
  | _ => some []

/-- The parent-child `forEach` over all entries, concatenating each
entry's contribution (a thrown error anywhere aborts the whole call). -/
def parentChildPass (allFields : List AvroField) :
    List (List Char) → Option (List String)
  | [] => some []
  | e :: rest => do
    let names ← parseChildBitmapPair allFields e
    let more ← parentChildPass allFields rest
    pure (names ++ more)

/-- Source `parseFieldBitmaps(allFields, fieldBitmapsAsHex)`: empty input gives
an empty result; a `0x`-prefixed first entry contributes the top-level
bitmap's field names; when there is more than one entry and the last
entry contains a `-`, every entry additionally goes through the
parent-child resolution. -/
def parseFieldBitmaps (allFields : List AvroField)
    (fieldBitmapsAsHex : List (List Char)) : Option (List String) :=
  match fieldBitmapsAsHex with
  | [] => some []
  | first :: _ =>
    let fieldNames :=
      if first.take 2 = ['0', 'x'] then getFieldNamesFromBitmap allFields first else []
    if fieldBitmapsAsHex.length > 1 ∧ '-' ∈ fieldBitmapsAsHex.getLastD [] then
      (parentChildPass allFields fieldBitmapsAsHex).map (fun more => fieldNames ++ more)
    else some fieldNames

/-! ## Specification-side view of the bitmap algorithm -/

/-- The sixteen uppercase hexadecimal digits. -/
def hexDigitsUpper : List Char :=
  ['0', '1', '2', '3', '4', '5', '6', '7', '8', '9', 'A', 'B', 'C', 'D', 'E', 'F']

/-- The lowercase hexadecimal letters (recognised by standard hex
semantics but absent from `hexExpansionTable`). -/
def hexLettersLower : List Char := ['a', 'b', 'c', 'd', 'e', 'f']

/-- The numeric value of one hexadecimal digit (0 for other characters). -/
def hexDigitVal : Char → Nat
  | '0' => 0 | '1' => 1 | '2' => 2 | '3' => 3 | '4' => 4
  | '5' => 5 | '6' => 6 | '7' => 7 | '8' => 8 | '9' => 9
  | 'A' => 10 | 'B' => 11 | 'C' => 12 | 'D' => 13 | 'E' => 14 | 'F' => 15
  | 'a' => 10 | 'b' => 11 | 'c' => 12 | 'd' => 13 | 'e' => 14 | 'f' => 15
  | _ => 0

/-- The numeric value of a hexadecimal digit string. -/
def hexValue (h : List Char) : Nat :=
  h.foldl (fun a c => 16 * a + hexDigitVal c) 0

/-- The character for bit `i` of `n`. -/
def bitChar (n i : Nat) : Char := if n.testBit i then '1' else '0'

/-- The 4-bit binary expansion of one hexadecimal digit,
most-significant bit first. -/
def expand4 (d : Char) : List Char :=
  [bitChar (hexDigitVal d) 3, bitChar (hexDigitVal d) 2,
   bitChar (hexDigitVal d) 1, bitChar (hexDigitVal d) 0]

/-- The first `len` bits of `n`, least-significant first, as characters. -/
def bitsChar (n len : Nat) : List Char := (List.range len).map (bitChar n)

/-- The specification's description of top-level bitmap resolution: the
names of the fields at set-bit positions `i` with `i < field count`, in
schema-declaration order. -/
def fieldNamesAtSetBitsSpec (fields : List AvroField) (n : Nat) : List String :=
  (List.range fields.length).filterMap
    (fun i => if n.testBit i then (fields.get? i).map AvroField.name else none)

/-! ### The replacement chain expands digits independently -/

/-- The map `replaceAllChar` distributes over append. -/
theorem replaceAllChar_append (c : Char) (r xs ys : List Char) :
    replaceAllChar c r (xs ++ ys) = replaceAllChar c r xs ++ replaceAllChar c r ys := by
  simp [replaceAllChar]

/-- A replacement chain distributes over append. -/
theorem chainReplace_append (table : List (Char × List Char)) (xs ys : List Char) :
    chainReplace table (xs ++ ys) = chainReplace table xs ++ chainReplace table ys := by
  induction table generalizing xs ys with
  | nil => rfl
  | cons cr rest ih =>
    show chainReplace rest (replaceAllChar cr.1 cr.2 (xs ++ ys)) = _
    rw [replaceAllChar_append, ih]
    rfl

/-- A replacement chain maps the empty string to the empty string. -/
theorem chainReplace_nil (table : List (Char × List Char)) :
    chainReplace table [] = [] := by
  induction table with
  | nil => rfl
  | cons cr rest ih =>
    show chainReplace rest (replaceAllChar cr.1 cr.2 []) = _
    exact ih

/-- A replacement chain acts independently on every character. -/
theorem chainReplace_flatMap (table : List (Char × List Char)) (l : List Char) :
    chainReplace table l = l.flatMap (fun d => chainReplace table [d]) := by
  induction l with
  | nil => simp [chainReplace_nil]
  | cons d rest ih =>
    show chainReplace table ([d] ++ rest) = (d :: rest).flatMap fun d => chainReplace table [d]
    rw [chainReplace_append, List.flatMap_cons, ih]

/-- On an uppercase hexadecimal digit the chain produces exactly the
4-bit binary expansion of the digit. -/
theorem chainReplace_digit_upper :
    ∀ d ∈ hexDigitsUpper, chainReplace hexExpansionTable [d] = expand4 d := by
  intro d hd
  fin_cases hd <;> rfl

/-- On a lowercase hexadecimal letter the chain leaves the character
unexpanded. -/
theorem chainReplace_letter_lower :
    ∀ d ∈ hexLettersLower, chainReplace hexExpansionTable [d] = [d] := by
  intro d hd
  fin_cases hd <;> rfl

/-! ### Bit strings -/

/-- Reversing the expansion of one digit lists its bits
least-significant first. -/
theorem expand4_reverse (d : Char) :
    (expand4 d).reverse = bitsChar (hexDigitVal d) 4 := by
  have h4 : List.range 4 = [0, 1, 2, 3] := rfl
  simp [expand4, bitsChar, h4]

/-- Every hexadecimal digit value is below 16. -/
theorem hexDigitVal_lt (c : Char) : hexDigitVal c < 16 := by
  unfold hexDigitVal
  split <;> omega

/-- Low bits of `16 * H + vd` come from `vd`. -/
theorem testBit_low (H vd i : Nat) (hvd : vd < 16) (hi : i < 4) :
    (16 * H + vd).testBit i = vd.testBit i := by
  rw [Nat.testBit_to_div_mod, Nat.testBit_to_div_mod]
  interval_cases i <;> norm_num <;> omega

/-- High bits of `16 * H + vd` come from `H`. -/
theorem testBit_high (H vd i : Nat) (hvd : vd < 16) :
    (16 * H + vd).testBit (4 + i) = H.testBit i := by
  rw [Nat.testBit_to_div_mod, Nat.testBit_to_div_mod]
  have h1 : (2 : Nat) ^ (4 + i) = 16 * 2 ^ i := by
    rw [pow_add]
    norm_num
  have h2 : (16 * H + vd) / (16 * 2 ^ i) = (16 * H + vd) / 16 / 2 ^ i := by
    rw [Nat.div_div_eq_div_mul]
  have h3 : (16 * H + vd) / 16 = H := by omega
  rw [h1, h2, h3]

/-- Splitting a bit string at the low 4 bits. -/
theorem bitsChar_split (H vd L : Nat) (hvd : vd < 16) :
    bitsChar (16 * H + vd) (4 + L) = bitsChar vd 4 ++ bitsChar H L := by
  rw [bitsChar, List.range_add, List.map_append, List.map_map]
  congr 1
  · apply List.map_congr_left
    intro i hi
    have hi4 : i < 4 := List.mem_range.mp hi
    rw [bitChar, bitChar, testBit_low H vd i hvd hi4]
  · apply List.map_congr_left
    intro i _
    show bitChar (16 * H + vd) (4 + i) = bitChar H i
    rw [bitChar, bitChar, testBit_high H vd i hvd]

/-- Appending a digit multiplies the value by 16. -/
theorem hexValue_append_digit (h : List Char) (d : Char) :
    hexValue (h ++ [d]) = 16 * hexValue h + hexDigitVal d := by
  simp [hexValue, List.foldl_append]

/-- The value of a digit string fits in 4 bits per digit. -/
theorem hexValue_lt (h : List Char) : hexValue h < 2 ^ (4 * h.length) := by
  induction h using List.reverseRecOn with
  | nil => simp [hexValue]
  | append_singleton h d ih =>
    rw [hexValue_append_digit]
    have hd := hexDigitVal_lt d
    have hlen : 4 * (h ++ [d]).length = 4 * h.length + 4 := by
      simp
      omega
    rw [hlen, pow_add]
    norm_num
    omega

/-- Reversing the concatenated expansions of a digit string lists the
bits of its value, least-significant first. -/
theorem flatMap_expand4_reverse (h : List Char) :
    (h.flatMap expand4).reverse = bitsChar (hexValue h) (4 * h.length) := by
  induction h using List.reverseRecOn with
  | nil => simp [bitsChar, hexValue]
  | append_singleton h d ih =>
    rw [List.flatMap_append, List.reverse_append, List.flatMap_cons]
    simp only [List.flatMap_nil, List.append_nil]
    rw [expand4_reverse, ih, hexValue_append_digit]
    have hlen : 4 * (h ++ [d]).length = 4 + 4 * h.length := by
      simp
      omega
    rw [hlen, bitsChar_split _ _ _ (hexDigitVal_lt d)]

/-- A `flatMap` only depends on the function's values on the list. -/
theorem flatMap_congr_mem {α β : Type} (l : List α) (f g : α → List β)
    (h : ∀ a ∈ l, f a = g a) : l.flatMap f = l.flatMap g := by
  induction l with
  | nil => rfl
  | cons a t ih =>
    rw [List.flatMap_cons, List.flatMap_cons, h a (by simp),
      ih (fun b hb => h b (by simp [hb]))]

/-- Peeling the lowest bit off a bit string. -/
theorem bitsChar_succ (n L : Nat) :
    bitsChar n (L + 1) = bitChar n 0 :: bitsChar (n / 2) L := by
  rw [bitsChar, List.range_succ_eq_map, List.map_cons, List.map_map]
  congr 1
  apply List.map_congr_left
  intro i _
  show bitChar n (Nat.succ i) = bitChar (n / 2) i
  rw [bitChar, bitChar, Nat.testBit_succ]

/-- The name sequence of value 0 is empty. -/
theorem fieldNamesAtSetBitsSpec_zero (fields : List AvroField) :
    fieldNamesAtSetBitsSpec fields 0 = [] := by
  simp [fieldNamesAtSetBitsSpec, Nat.zero_testBit]

/-- Peeling the first field off the specification-side name sequence. -/
theorem fieldNamesAtSetBitsSpec_cons (f : AvroField) (fs : List AvroField) (n : Nat) :
    fieldNamesAtSetBitsSpec (f :: fs) n
      = (if n.testBit 0 then [f.name] else []) ++ fieldNamesAtSetBitsSpec fs (n / 2) := by
  unfold fieldNamesAtSetBitsSpec
  rw [List.length_cons, List.range_succ_eq_map, List.filterMap_cons, List.filterMap_map]
  have hfun : ((fun i => if n.testBit i then ((f :: fs).get? i).map AvroField.name else none)
        ∘ Nat.succ)
      = fun i => if (n / 2).testBit i then (fs.get? i).map AvroField.name else none := by
    funext i
    show (if n.testBit (Nat.succ i) then ((f :: fs).get? (Nat.succ i)).map AvroField.name
        else none) = _
    rw [Nat.testBit_succ]
    rfl
  rw [hfun]
  rcases h : n.testBit 0 <;> simp [h]

/-- The source's zip-and-filter loop over a bit string computes the
specification's name sequence. -/
theorem zipFilter_eq_spec (fields : List AvroField) :
    ∀ (L n : Nat), n < 2 ^ L →
      ((bitsChar n L).zip fields).filterMap
          (fun cf => if cf.1 = '1' then some cf.2.name else none)
        = fieldNamesAtSetBitsSpec fields n := by
  induction fields with
  | nil =>
    intro L n _
    simp [fieldNamesAtSetBitsSpec, List.zip_nil_right]
  | cons f fs ih =>
    intro L n hn
    cases L with
    | zero =>
      have hn0 : n = 0 := by
        simp at hn
        omega
      subst hn0
      simp [bitsChar, fieldNamesAtSetBitsSpec_zero]
    | succ L =>
      rw [bitsChar_succ, List.zip_cons_cons, List.filterMap_cons,
        fieldNamesAtSetBitsSpec_cons]
      have hhalf : n / 2 < 2 ^ L := by
        have hp : 2 ^ (L + 1) = 2 ^ L * 2 := pow_succ 2 L
        omega
      have hrec := ih L (n / 2) hhalf
      rcases hb : n.testBit 0 <;> simp [bitChar, hb, hrec]

/-- The source's top-level bitmap resolution computes the
specification's name sequence, for `0x`-prefixed strings of uppercase
hexadecimal digits. -/
theorem getFieldNamesFromBitmap_eq_spec (fields : List AvroField) (h : List Char)
    (hup : ∀ c ∈ h, c ∈ hexDigitsUpper) :
    getFieldNamesFromBitmap fields (['0', 'x'] ++ h)
      = fieldNamesAtSetBitsSpec fields (hexValue h) := by
  unfold getFieldNamesFromBitmap hexToBin
  have hdrop : (['0', 'x'] ++ h).drop 2 = h := rfl
  rw [hdrop, chainReplace_flatMap]
  have hflat : h.flatMap (fun d => chainReplace hexExpansionTable [d])
      = h.flatMap expand4 :=
    flatMap_congr_mem h _ _ (fun d hd => chainReplace_digit_upper d (hup d hd))
  rw [hflat, flatMap_expand4_reverse]
  exact zipFilter_eq_spec fields _ _ (hexValue_lt h)

/-! ## Concrete schemas used in the evaluations -/

/-- Two top-level fields; `B` has a union type with one record branch
holding child fields `C` and `D`. -/
def unionFields : List AvroField :=
  [.mk "A" .otherT,
   .mk "B" (.unionT [.otherT, .recordT [.mk "C" .otherT, .mk "D" .otherT]])]

/-- Five plain top-level fields. -/
def fields5 : List AvroField :=
  [.mk "f0" .otherT, .mk "f1" .otherT, .mk "f2" .otherT,
   .mk "f3" .otherT, .mk "f4" .otherT]

/-! ## Claim C6 -/

/-- C6: the resolver maps the empty bitmap sequence to the empty
result; and whenever the first entry is `0x`-prefixed (digits written
in the uppercase alphabet the resolver recognises) and the sequence
does not additionally trigger the parent-child branch, the result is
exactly the names of the fields at the set-bit positions `i < field
count` of the entry's value, in schema-declaration order (each hex
digit expanded to 4 bits, full bit string reversed so bit 0 is the
first declared field). -/
theorem c6_topLevel_bitmap_resolution :
    (∀ fields : List AvroField, parseFieldBitmaps fields [] = some []) ∧
    (∀ (fields : List AvroField) (h : List Char) (rest : List (List Char)),
      (∀ c ∈ h, c ∈ hexDigitsUpper) →
      (rest = [] ∨ '-' ∉ ((['0', 'x'] ++ h) :: rest).getLastD []) →
      parseFieldBitmaps fields ((['0', 'x'] ++ h) :: rest)
        = some (fieldNamesAtSetBitsSpec fields (hexValue h))) := by
  constructor
  · intro fields
    rfl
  · intro fields h rest hup hcond
    have hcondF : ¬((((['0', 'x'] ++ h) :: rest).length > 1)
        ∧ '-' ∈ ((['0', 'x'] ++ h) :: rest).getLastD []) := by
      rcases hcond with hc | hc
      · subst hc
        simp
      · intro hand
        exact hc hand.2
    show (let fieldNames := if (['0', 'x'] ++ h).take 2 = ['0', 'x']
            then getFieldNamesFromBitmap fields (['0', 'x'] ++ h) else []
          if (((['0', 'x'] ++ h) :: rest).length > 1)
              ∧ '-' ∈ ((['0', 'x'] ++ h) :: rest).getLastD [] then
            (parentChildPass fields ((['0', 'x'] ++ h) :: rest)).map
              (fun more => fieldNames ++ more)
          else some fieldNames)
        = some (fieldNamesAtSetBitsSpec fields (hexValue h))
    have htake : (['0', 'x'] ++ h).take 2 = ['0', 'x'] := rfl
    rw [if_pos htake, if_neg hcondF, getFieldNamesFromBitmap_eq_spec fields h hup]

/-- C6 witness: resolving the single bitmap `0x3` against two fields
yields both field names. -/
theorem c6_topLevel_bitmap_resolution_witness :
    (∀ c ∈ (['3'] : List Char), c ∈ hexDigitsUpper) ∧
    parseFieldBitmaps unionFields [['0', 'x', '3']]
      = some (fieldNamesAtSetBitsSpec unionFields (hexValue ['3'])) ∧
    fieldNamesAtSetBitsSpec unionFields (hexValue ['3']) = ["A", "B"] :=
  ⟨by decide,
   c6_topLevel_bitmap_resolution.2 unionFields ['3'] [] (by decide) (Or.inl rfl),
   by decide⟩

/-! ## Claim C5 -/

/-- C5 counterexample: the claim says parent-child resolution also
applies when the sequence has exactly one entry, but
`parseFieldBitmaps` enters the parent-child branch only when the
sequence has more than one entry: the single pair `"1-0x1"` resolves to
the empty list instead of `["B.C"]`. -/
theorem c5_counterexample_single_pair_entry :
    parseFieldBitmaps unionFields [['1', '-', '0', 'x', '1']] = some [] ∧
    some ([] : List String) ≠ some ["B.C"] := by
  constructor
  · decide
  · decide

/-- The specification's description of locating a parent field for a
parent-child pair: the field at the positional index in the top-level
field list, together with the member fields of the record-typed
branches of its (possibly union) type. -/
def childFieldsOfParentSpec (allFields : List AvroField) (parentIdx : Nat) :
    Option (AvroField × List AvroField) :=
  match allFields.get? parentIdx with
  | none => none
  | some parentField =>
    match parentField.ftype with
    | .unionT branches =>
      some (parentField,
        branches.flatMap (fun t => match t with
          | .recordT fs => fs
          | _ => []))
    | _ => none

/-- The specification's description of one parent-child pair
`"<parentFieldIndex>-<childBitmapHex>"`: resolve the parent field by
positional index, resolve the child bitmap against the parent's nested
fields with the top-level algorithm, and emit each child name prefixed
with the parent's name and a dot. -/
def resolveParentChildPairSpec (allFields : List AvroField) (parentIdx : Nat)
    (childHex : List Char) : Option (List String) :=
  (childFieldsOfParentSpec allFields parentIdx).map
    (fun pc => (getFieldNamesFromBitmap pc.2 childHex).map
      (fun childName => pc.1.name ++ "." ++ childName))

/-- The decimal value of a digit string. -/
def decimalValue (s : List Char) : Nat :=
  s.foldl (fun a c => 10 * a + (c.toNat - 48)) 0

/-- The wire form of a parent-child pair: the decimal index, a dash,
the child bitmap. -/
def pairEntry (p : List Char × List Char) : List Char :=
  p.1 ++ '-' :: p.2

/-- Splitting a list that does not contain the separator. -/
theorem splitOnChar_not_mem (sep : Char) (l : List Char) (h : sep ∉ l) :
    splitOnChar sep l = [l] := by
  induction l with
  | nil => rfl
  | cons x t ih =>
    rw [List.mem_cons] at h
    push_neg at h
    simp only [splitOnChar]
    rw [ih h.2, if_neg (fun he => h.1 he.symm)]

/-- Splitting at the first separator occurrence. -/
theorem splitOnChar_append (sep : Char) (a b : List Char) (ha : sep ∉ a) :
    splitOnChar sep (a ++ sep :: b) = a :: splitOnChar sep b := by
  induction a with
  | nil => simp [splitOnChar]
  | cons x t ih =>
    rw [List.mem_cons] at ha
    push_neg at ha
    simp only [List.cons_append, splitOnChar, List.append_eq]
    rw [ih ha.2, if_neg (fun he => ha.1 he.symm)]

/-- A decimal digit is not a space, a minus, or a plus. -/
theorem digit_char_ne (c : Char) (h : c.isDigit = true) :
    c ≠ ' ' ∧ c ≠ '-' ∧ c ≠ '+' := by
  refine ⟨?_, ?_, ?_⟩ <;> intro he <;> subst he <;> exact absurd h (by decide)

/-- On a nonempty all-digit string, `parseInt` returns its decimal
value. -/
theorem parseIntJS_digits (s : List Char) (hne : s ≠ [])
    (hd : ∀ c ∈ s, c.isDigit) :
    parseIntJS s = some ((decimalValue s : Nat) : Int) := by
  rcases s with _ | ⟨c, rest⟩
  · exact absurd rfl hne
  obtain ⟨hsp, hmi, hpl⟩ := digit_char_ne c (hd c (by simp))
  have hdrop : (c :: rest).dropWhile (fun x => x = ' ') = c :: rest := by
    rw [List.dropWhile_cons]
    simp [hsp]
  have htake : (c :: rest).takeWhile Char.isDigit = c :: rest :=
    List.takeWhile_eq_self_iff.mpr hd
  unfold parseIntJS
  simp only [hdrop]
  have hmatch : (match c :: rest with
      | '-' :: r => ((-1 : Int), r)
      | '+' :: r => ((1 : Int), r)
      | t => ((1 : Int), t)) = ((1 : Int), c :: rest) := by
    split
    · rename_i heq
      simp_all
    · rename_i heq
      simp_all
    · rfl
  rw [hmatch]
  simp only [htake, List.isEmpty_cons, decimalValue]
  rw [if_neg (by simp)]
  simp

/-- A source pair entry computes the specification's pair resolution. -/
theorem parseChildBitmapPair_pair (fields : List AvroField)
    (idxStr childHex : List Char) (hne : idxStr ≠ [])
    (hd : ∀ c ∈ idxStr, c.isDigit) (hnd : '-' ∉ childHex) :
    parseChildBitmapPair fields (idxStr ++ '-' :: childHex)
      = resolveParentChildPairSpec fields (decimalValue idxStr) childHex := by
  have hnd1 : '-' ∉ idxStr := fun hm => absurd (hd '-' hm) (by decide)
  simp only [parseChildBitmapPair, splitOnChar_append '-' idxStr childHex hnd1,
    splitOnChar_not_mem '-' childHex hnd, parseIntJS_digits idxStr hne hd,
    Int.natCast_nonneg, if_true, Int.toNat_natCast,
    resolveParentChildPairSpec, childFieldsOfParentSpec]
  rcases fields.get? (decimalValue idxStr) with _ | parentField
  · rfl
  · rcases parentField with ⟨nm, ft⟩
    rcases ft with branches | fs | _ <;> rfl

/-- The parent-child `forEach` over well-formed wire pairs computes the
pairwise specification resolutions, concatenated in order. -/
theorem parentChildPass_pairs (fields : List AvroField)
    (pairs : List (List Char × List Char))
    (hwf : ∀ p ∈ pairs, p.1 ≠ [] ∧ (∀ c ∈ p.1, c.isDigit) ∧ '-' ∉ p.2) :
    parentChildPass fields (pairs.map pairEntry)
      = (pairs.mapM
          (fun p => resolveParentChildPairSpec fields (decimalValue p.1) p.2)).map
          List.flatten := by
  induction pairs with
  | nil => rfl
  | cons p ps ih =>
    obtain ⟨h1, h2, h3⟩ := hwf p (by simp)
    rw [List.map_cons]
    simp only [parentChildPass, pairEntry]
    rw [parseChildBitmapPair_pair fields p.1 p.2 h1 h2 h3,
      ih (fun q hq => hwf q (by simp [hq])), List.mapM_cons]
    rcases hhead : resolveParentChildPairSpec fields (decimalValue p.1) p.2 with
      _ | names <;>
      rcases hM : List.mapM
          (fun p => resolveParentChildPairSpec fields (decimalValue p.1) p.2) ps with
        _ | parts <;>
      simp only [List.mapM] at hM <;>
      simp [hhead, hM]

/-- The first two characters of a pair entry are never `0x`. -/
theorem pairEntry_take_two_ne (p : List Char × List Char) (hne : p.1 ≠ [])
    (hd : ∀ c ∈ p.1, c.isDigit) : (pairEntry p).take 2 ≠ ['0', 'x'] := by
  rcases p with ⟨a, b⟩
  rcases a with _ | ⟨c, t⟩
  · exact absurd rfl hne
  rcases t with _ | ⟨c2, t2⟩
  · intro he
    simp only [pairEntry, List.cons_append, List.nil_append, List.take_succ_cons,
      List.take_zero] at he
    injection he with _ he2
    injection he2 with h2 _
    exact absurd h2 (by decide)
  · intro he
    simp only [pairEntry, List.cons_append, List.take_succ_cons, List.take_zero] at he
    injection he with _ he2
    injection he2 with h2 _
    have := hd c2 (by simp)
    rw [h2] at this
    exact absurd this (by decide)

/-- A pair entry always contains a dash. -/
theorem pairEntry_mem_dash (p : List Char × List Char) : '-' ∈ pairEntry p := by
  simp [pairEntry]

/-- C5 (amended): the resolver treats a bitmap sequence as parent-child
pairs only when the sequence has at least two entries (and the last
contains a `-` separator); a single-entry sequence only ever gets the
top-level treatment of its first entry.  For every qualifying sequence
of well-formed pairs `"<parentFieldIndex>-<childBitmapHex>"`, every
pair resolves the parent field by positional index in the top-level
field list, gathers the record-typed branches' member fields of that
field's (possibly union) type, resolves the child bitmap against those
nested fields with the top-level algorithm, and emits each child name
prefixed with `"<parentFieldName>."`, the contributions concatenated in
sequence order — where for `0x`-prefixed uppercase child bitmaps the
top-level algorithm is in turn the set-bit name selection.  Both forms
may contribute to one output, as in the final two-entry evaluation. -/
theorem c5_amended_parent_child_needs_two_entries :
    (∀ (fields : List AvroField) (entry : List Char),
      parseFieldBitmaps fields [entry]
        = some (if entry.take 2 = ['0', 'x']
            then getFieldNamesFromBitmap fields entry else [])) ∧
    (∀ (fields : List AvroField) (pairs : List (List Char × List Char)),
      pairs.length > 1 →
      (∀ p ∈ pairs, p.1 ≠ [] ∧ (∀ c ∈ p.1, c.isDigit) ∧ '-' ∉ p.2) →
      parseFieldBitmaps fields (pairs.map pairEntry)
        = (pairs.mapM
            (fun p => resolveParentChildPairSpec fields (decimalValue p.1) p.2)).map
            List.flatten) ∧
    (∀ (fields : List AvroField) (parentIdx : Nat) (hx : List Char),
      (∀ c ∈ hx, c ∈ hexDigitsUpper) →
      resolveParentChildPairSpec fields parentIdx (['0', 'x'] ++ hx)
        = (childFieldsOfParentSpec fields parentIdx).map
            (fun pc => (fieldNamesAtSetBitsSpec pc.2 (hexValue hx)).map
              (fun childName => pc.1.name ++ "." ++ childName))) ∧
    parseFieldBitmaps unionFields [['0', 'x', '3'], ['1', '-', '0', 'x', '1']]
      = some ["A", "B", "B.C"] := by
  refine ⟨?_, ?_, ?_, by decide⟩
  · intro fields entry
    show (let fieldNames := if entry.take 2 = ['0', 'x']
            then getFieldNamesFromBitmap fields entry else []
          if (([entry] : List (List Char)).length > 1)
              ∧ '-' ∈ ([entry] : List (List Char)).getLastD [] then
            (parentChildPass fields [entry]).map (fun more => fieldNames ++ more)
          else some fieldNames) = _
    rw [if_neg (by simp)]
  · intro fields pairs hgt hwf
    rcases pairs with _ | ⟨q, qs⟩
    · simp at hgt
    obtain ⟨hq1, hq2, _⟩ := hwf q (by simp)
    rw [List.map_cons]
    show (let fieldNames := if (pairEntry q).take 2 = ['0', 'x']
            then getFieldNamesFromBitmap fields (pairEntry q) else []
          if ((pairEntry q :: qs.map pairEntry).length > 1)
              ∧ '-' ∈ (pairEntry q :: qs.map pairEntry).getLastD [] then
            (parentChildPass fields (pairEntry q :: qs.map pairEntry)).map
              (fun more => fieldNames ++ more)
          else some fieldNames) = _
    rw [if_neg (pairEntry_take_two_ne q hq1 hq2)]
    have hdash : '-' ∈ (pairEntry q :: qs.map pairEntry).getLastD [] := by
      have hne2 : (pairEntry q :: qs.map pairEntry) ≠ [] := by simp
      rw [List.getLastD_eq_getLast?, List.getLast?_eq_getLast _ hne2, Option.getD_some]
      have hmem := List.getLast_mem hne2
      rcases List.mem_cons.mp hmem with h | h
      · rw [h]
        exact pairEntry_mem_dash q
      · obtain ⟨r, _, hr⟩ := List.mem_map.mp h
        rw [← hr]
        exact pairEntry_mem_dash r
    have hlen : (pairEntry q :: qs.map pairEntry).length > 1 := by
      simp only [List.length_cons, List.length_map]
      simp only [List.length_cons] at hgt
      omega
    rw [if_pos ⟨hlen, hdash⟩]
    have hpass := parentChildPass_pairs fields (q :: qs) hwf
    rw [List.map_cons] at hpass
    rw [hpass]
    rcases hM : List.mapM
        (fun p => resolveParentChildPairSpec fields (decimalValue p.1) p.2) (q :: qs) with
      _ | parts <;>
      simp only [List.mapM] at hM <;>
      simp [hM]
  · intro fields parentIdx hx hup
    have hfun : (fun pc : AvroField × List AvroField =>
          (getFieldNamesFromBitmap pc.2 (['0', 'x'] ++ hx)).map
            (fun childName => pc.1.name ++ "." ++ childName))
        = (fun pc : AvroField × List AvroField =>
          (fieldNamesAtSetBitsSpec pc.2 (hexValue hx)).map
            (fun childName => pc.1.name ++ "." ++ childName)) := by
      funext pc
      rw [getFieldNamesFromBitmap_eq_spec pc.2 hx hup]
    unfold resolveParentChildPairSpec
    rw [hfun]

/-- Two concrete wire pairs, both targeting the union field `B`. -/
def unionPairs : List (List Char × List Char) :=
  [(['1'], ['0', 'x', '1']), (['1'], ['0', 'x', '2'])]

/-- C5 witness: the universal pair theorem applied to two concrete
pairs, with the specification side evaluated. -/
theorem c5_amended_parent_child_needs_two_entries_witness :
    unionPairs.length > 1 ∧
    parseFieldBitmaps unionFields (unionPairs.map pairEntry)
      = (unionPairs.mapM
          (fun p => resolveParentChildPairSpec unionFields (decimalValue p.1) p.2)).map
          List.flatten ∧
    (unionPairs.mapM
        (fun p => resolveParentChildPairSpec unionFields (decimalValue p.1) p.2)).map
        List.flatten = some ["B.C", "B.D"] :=
  ⟨by decide,
   c5_amended_parent_child_needs_two_entries.2.1 unionFields unionPairs
     (by decide) (by decide),
   by decide⟩

/-! ## Claim C10 -/

/-- C10: the hex-to-binary expansion only recognises `0-9` and the
uppercase `A-F`; every lowercase `a-f` character is left unexpanded in
the produced bit string, so the resolved field-name set can differ from
the 4-bits-per-digit semantics: on `0x1a` over five fields, the code
yields `["f1"]` (the set bits encoded by `a` are dropped and the bit of
the digit `1` shifts from position 4 to position 1) while the
4-bits-per-digit semantics yields `["f1", "f3", "f4"]`. -/
theorem c10_lowercase_hex_left_unexpanded :
    (∀ h : List Char, (∀ c ∈ h, c ∈ hexDigitsUpper ∨ c ∈ hexLettersLower) →
        chainReplace hexExpansionTable h
          = h.flatMap (fun d => if d ∈ hexLettersLower then [d] else expand4 d)) ∧
    hexToBin ['0', 'x', '1', 'a'] = ['0', '0', '0', '1', 'a'] ∧
    getFieldNamesFromBitmap fields5 ['0', 'x', '1', 'a'] = ["f1"] ∧
    fieldNamesAtSetBitsSpec fields5 (hexValue ['1', 'a']) = ["f1", "f3", "f4"] ∧
    (["f1"] : List String) ≠ ["f1", "f3", "f4"] := by
  refine ⟨?_, by decide, by decide, by decide, by decide⟩
  intro h hmem
  rw [chainReplace_flatMap]
  apply flatMap_congr_mem
  intro d hd
  rcases hmem d hd with hU | hL
  · have hnotL : ¬(d ∈ hexLettersLower) := by
      fin_cases hU <;> decide
    rw [if_neg hnotL, chainReplace_digit_upper d hU]
  · rw [if_pos hL, chainReplace_letter_lower d hL]

/-- C10 witness: the expansion of `"1a"` keeps the lowercase `a`
verbatim while expanding the `1`. -/
theorem c10_lowercase_hex_left_unexpanded_witness :
    (∀ c ∈ (['1', 'a'] : List Char), c ∈ hexDigitsUpper ∨ c ∈ hexLettersLower) ∧
    chainReplace hexExpansionTable ['1', 'a']
      = (['1', 'a'] : List Char).flatMap
          (fun d => if d ∈ hexLettersLower then [d] else expand4 d) :=
  ⟨by decide, c10_lowercase_hex_left_unexpanded.1 ['1', 'a'] (by decide)⟩

/-! ## Single-property flattening (`flattenSinglePropertyObjects`) -/

/-- A decoded JavaScript value: `null`, a primitive, or an object with
ordered string-keyed attributes. -/
inductive JSValue where
  | nullv
  | num (n : Int)
  | str (s : String)
  | boolv (b : Bool)
  | obj (entries : List (String × JSValue))

/-- Whether the value is a (truthy) object. -/
def JSValue.isObj : JSValue → Bool
  | .obj _ => true
  | _ => false

/-- Whether the value is an object with exactly one key. -/
def JSValue.isSingleKeyObj : JSValue → Bool
  | .obj [_] => true
  | _ => false

mutual

/-- Source `flattenSinglePropertyObjects(theObject)`, modelled as returning the
updated attribute list: for every attribute other than
`ChangeEventHeader` whose value is a single-key object, replace it by
the single inner value, and when that inner value is itself an object,
flatten its attributes recursively.  The source mutates in place;
attribute order is preserved. -/
def flattenSinglePropertyObjects :
    List (String × JSValue) → List (String × JSValue)
  | [] => []
  | (key, value) :: rest =>
    (key, flattenAttribute key value) :: flattenSinglePropertyObjects rest

/-- The update of one attribute. -/
def flattenAttribute (key : String) (value : JSValue) : JSValue :=
  if key = "ChangeEventHeader" then value
  else
    match value with
    | .obj [(_, .obj subEntries)] => .obj (flattenSinglePropertyObjects subEntries)
    | .obj [(_, subValue)] => subValue
    | _ => value

end

/-! ## Claim C7 -/

/-- Auxiliary: an attribute that is the change-event header, or whose
value is not a single-key object, is left unchanged. -/
theorem flattenAttribute_id (key : String) (value : JSValue)
    (h : key = "ChangeEventHeader" ∨ value.isSingleKeyObj = false) :
    flattenAttribute key value = value := by
  by_cases hk : key = "ChangeEventHeader"
  · unfold flattenAttribute
    rw [if_pos hk]
  · have hs : value.isSingleKeyObj = false := by
      rcases h with h | h
      · exact absurd h hk
      · exact h
    unfold flattenAttribute
    rw [if_neg hk]
    split
    · simp_all [JSValue.isSingleKeyObj]
    · simp_all [JSValue.isSingleKeyObj]
    · rfl

/-- C7: flattening replaces each attribute whose value is a single-key
object by the unwrapped inner value — recursively flattening the
replacement when it is itself an object — for every attribute except
the change-event header, which is left untouched; attribute keys are
preserved, and a record none of whose attribute values is a single-key
object (header aside) is returned unchanged. -/
theorem c7_flattening :
    (∀ entries : List (String × JSValue),
      (∀ p ∈ entries, p.1 = "ChangeEventHeader" ∨ p.2.isSingleKeyObj = false) →
      flattenSinglePropertyObjects entries = entries) ∧
    (∀ value : JSValue, flattenAttribute "ChangeEventHeader" value = value) ∧
    (∀ entries : List (String × JSValue),
      (flattenSinglePropertyObjects entries).map Prod.fst = entries.map Prod.fst) ∧
    (∀ (key innerKey : String) (subEntries : List (String × JSValue)),
      key ≠ "ChangeEventHeader" →
      flattenAttribute key (.obj [(innerKey, .obj subEntries)])
        = .obj (flattenSinglePropertyObjects subEntries)) ∧
    (∀ (key innerKey : String) (subValue : JSValue),
      key ≠ "ChangeEventHeader" → subValue.isObj = false →
      flattenAttribute key (.obj [(innerKey, subValue)]) = subValue) := by
  refine ⟨?_, ?_, ?_, ?_, ?_⟩
  · intro entries h
    induction entries with
    | nil => rfl
    | cons p rest ih =>
      rcases p with ⟨key, value⟩
      rw [flattenSinglePropertyObjects,
        flattenAttribute_id key value (h (key, value) (by simp)),
        ih (fun q hq => h q (by simp [hq]))]
  · intro value
    unfold flattenAttribute
    rw [if_pos rfl]
  · intro entries
    induction entries with
    | nil => rfl
    | cons p rest ih =>
      rcases p with ⟨key, value⟩
      rw [flattenSinglePropertyObjects]
      simp [ih]
  · intro key innerKey subEntries hk
    unfold flattenAttribute
    rw [if_neg hk]
  · intro key innerKey subValue hk hobj
    unfold flattenAttribute
    rw [if_neg hk]
    rcases subValue with _ | _ | _ | _ | entries
    · rfl
    · rfl
    · rfl
    · rfl
    · simp [JSValue.isObj] at hobj

/-- C7 witness: a record whose only single-key object sits under the
change-event header is returned unchanged. -/
theorem c7_flattening_witness :
    (∀ p ∈ ([("a", JSValue.obj [("x", JSValue.num 1), ("y", JSValue.num 2)]),
             ("ChangeEventHeader", JSValue.obj [("k", JSValue.nullv)])] :
        List (String × JSValue)),
      p.1 = "ChangeEventHeader" ∨ p.2.isSingleKeyObj = false) ∧
    flattenSinglePropertyObjects
        [("a", JSValue.obj [("x", JSValue.num 1), ("y", JSValue.num 2)]),
         ("ChangeEventHeader", JSValue.obj [("k", JSValue.nullv)])]
      = [("a", JSValue.obj [("x", JSValue.num 1), ("y", JSValue.num 2)]),
         ("ChangeEventHeader", JSValue.obj [("k", JSValue.nullv)])] :=
  ⟨by decide, c7_flattening.1 _ (by decide)⟩

/-! ## User-supplied authentication (`PubSubApiClient.connectWithAuth`)

Strings are modelled as `List Char`, like the bitmap strings. -/

/-- The metadata `connectWithAuth` hands to `#connectToPubSubApi` when
validation passes. -/
structure ConnectionMetadata where
  accessToken : List Char
  instanceUrl : List Char
  organizationId : List Char
deriving DecidableEq

/-- The two validation failures `connectWithAuth` can throw. -/
inductive ConnectError where
  | invalidUrl (instanceUrl : List Char)
  | invalidOrgId (organizationId : List Char)
deriving DecidableEq

/-- The characters of `"https://"`. -/
def httpsScheme : List Char := ['h', 't', 't', 'p', 's', ':', '/', '/']

/-- JavaScript truthiness of an optional string argument (`undefined`
and the empty string are falsy). -/
def jsTruthyStr : Option (List Char) → Bool
  | some s => !s.isEmpty
  | none => false

/-- The organization id `connectWithAuth` validates: the supplied one
when truthy, otherwise the first segment of the access token split on
`!` (`accessToken.split("!").at(0)`). -/
def resolveOrganizationId (accessToken : List Char)
    (organizationId : Option (List Char)) : List Char :=
  if jsTruthyStr organizationId then organizationId.getD []
  else (splitOnChar '!' accessToken).headD []

/-- Source `connectWithAuth(accessToken, instanceUrl, organizationId)`,
validation part: reject an instance URL that does not start with
`https://` (the falsy-URL guard is subsumed: the empty string has no
such prefix); derive the organization id from the access token when
none is supplied; reject an id whose length is neither 15 nor 18;
otherwise proceed with the validated metadata. -/
def connectWithAuth (accessToken instanceUrl : List Char)
    (organizationId : Option (List Char)) : Except ConnectError ConnectionMetadata :=
  if ¬ httpsScheme.isPrefixOf instanceUrl then .error (.invalidUrl instanceUrl)
  else
    let validOrganizationId := resolveOrganizationId accessToken organizationId
    if validOrganizationId.length ≠ 15 ∧ validOrganizationId.length ≠ 18 then
      .error (.invalidOrgId validOrganizationId)
    else .ok ⟨accessToken, instanceUrl, validOrganizationId⟩

/-- Whether an organization id has a valid length. -/
def validOrgIdLength (s : List Char) : Bool :=
  s.length == 15 || s.length == 18

/-- Auxiliary: the three outcomes of `connectWithAuth`. -/
theorem connectWithAuth_eq (t u : List Char) (oid : Option (List Char)) :
    connectWithAuth t u oid
      = if ¬ httpsScheme.isPrefixOf u then .error (.invalidUrl u)
        else if (resolveOrganizationId t oid).length ≠ 15
            ∧ (resolveOrganizationId t oid).length ≠ 18 then
          .error (.invalidOrgId (resolveOrganizationId t oid))
        else .ok ⟨t, u, resolveOrganizationId t oid⟩ := rfl

/-! ## Claim C9 -/

/-- C9: with no organization id the call derives one by splitting the
access token on `!` and keeping the first segment — the token
`"00Dxx0000!abc"` yields `"00Dxx0000"` (here visible in the rejection,
since that id has 9 characters); the call fails with a validation
error exactly when the (derived or supplied) id's length is neither 15
nor 18 — a 16-character id is rejected — or when the instance URL does
not start with `https://`; when both checks pass it proceeds with the
validated metadata. -/
theorem c9_user_supplied_auth_validation :
    (∀ (t u : List Char) (oid : Option (List Char)),
      (connectWithAuth t u oid
          = .ok ⟨t, u, resolveOrganizationId t oid⟩)
        ↔ (httpsScheme.isPrefixOf u && validOrgIdLength (resolveOrganizationId t oid))
            = true) ∧
    (∀ (t u : List Char) (oid : Option (List Char)),
      (∃ e, connectWithAuth t u oid = .error e)
        ↔ (httpsScheme.isPrefixOf u && validOrgIdLength (resolveOrganizationId t oid))
            = false) ∧
    connectWithAuth
        ['0', '0', 'D', 'x', 'x', '0', '0', '0', '0', '!', 'a', 'b', 'c']
        ['h', 't', 't', 'p', 's', ':', '/', '/', 's', 'f', '.', 'c', 'o', 'm'] none
      = .error (.invalidOrgId ['0', '0', 'D', 'x', 'x', '0', '0', '0', '0']) ∧
    connectWithAuth ['t', 'o', 'k']
        ['h', 't', 't', 'p', 's', ':', '/', '/', 's', 'f', '.', 'c', 'o', 'm']
        (some ['o', 'r', 'g', 'o', 'r', 'g', 'o', 'r', 'g', 'o', 'r', 'g', 'o', 'r',
               'g', 'x'])
      = .error (.invalidOrgId ['o', 'r', 'g', 'o', 'r', 'g', 'o', 'r', 'g', 'o', 'r',
          'g', 'o', 'r', 'g', 'x']) ∧
    connectWithAuth ['t', 'o', 'k']
        ['h', 't', 't', 'p', ':', '/', '/', 's', 'f', '.', 'c', 'o', 'm']
        (some ['o', 'r', 'g', 'o', 'r', 'g', 'o', 'r', 'g', 'o', 'r', 'g', 'o', 'r',
               'g'])
      = .error (.invalidUrl ['h', 't', 't', 'p', ':', '/', '/', 's', 'f', '.', 'c',
          'o', 'm']) ∧
    connectWithAuth ['t', 'o', 'k']
        ['h', 't', 't', 'p', 's', ':', '/', '/', 's', 'f', '.', 'c', 'o', 'm']
        (some ['o', 'r', 'g', 'o', 'r', 'g', 'o', 'r', 'g', 'o', 'r', 'g', 'o', 'r',
               'g'])
      = .ok ⟨['t', 'o', 'k'],
            ['h', 't', 't', 'p', 's', ':', '/', '/', 's', 'f', '.', 'c', 'o', 'm'],
            ['o', 'r', 'g', 'o', 'r', 'g', 'o', 'r', 'g', 'o', 'r', 'g', 'o', 'r',
             'g']⟩ := by
  refine ⟨?_, ?_, by rfl, by rfl, by rfl, by rfl⟩
  · intro t u oid
    rw [connectWithAuth_eq]
    split_ifs with h1 h2 <;>
      simp_all [validOrgIdLength, beq_iff_eq] <;>
      omega
  · intro t u oid
    rw [connectWithAuth_eq]
    split_ifs with h1 h2 <;>
      simp_all [validOrgIdLength, beq_iff_eq] <;>
      omega
